import Mathlib

/-!
A verification development for the influencer-personality scoring pipeline
(`assign_scores.py`, `insights.py`).  Numeric values are modelled as exact
rationals; the external sentence-embedding model, the zero-shot classifier
and the floating-point square root used inside cosine similarity are
abstract function parameters.
-/

namespace Spec2Proof

/-- Vectors are lists of rationals (a dense float vector of the source). -/
abbrev Vec := List ℚ

/-- Dot product of two vectors (missing coordinates contribute nothing,
as the source always pairs vectors of one embedding dimension). -/
def dot (u v : Vec) : ℚ := (List.zipWith (fun a b => a * b) u v).sum

/-- Python's `round` to an integer: round half to even (banker's rounding),
modelled exactly on rationals. -/
def bankerRound (q : ℚ) : ℤ :=
  if q - ⌊q⌋ < 1/2 then ⌊q⌋
  else if 1/2 < q - ⌊q⌋ then ⌊q⌋ + 1
  else if ⌊q⌋ % 2 = 0 then ⌊q⌋ else ⌊q⌋ + 1

/-- Python's `round(q, n)`: banker's rounding at `n` decimal places. -/
def pyRound (q : ℚ) (n : ℕ) : ℚ := (bankerRound (q * 10 ^ n) : ℚ) / 10 ^ n

/-- Scalar multiple of a vector (`w * v` on a numpy row). -/
def vecSmul (c : ℚ) (v : Vec) : Vec := v.map (fun x => c * x)

/-- Componentwise sum of two vectors. -/
def vecAdd (u v : Vec) : Vec := List.zipWith (fun a b => a + b) u v

/-- `np.mean(axis=0)` over a list of rows: the componentwise sum divided by
the number of rows (not by any weight). -/
def vecMean : List Vec → Vec
  | [] => []
  | v :: vs => vecSmul (1 / ((vs.length : ℚ) + 1)) (vs.foldl vecAdd v)

/-- `sklearn.cosine_similarity` of two vectors: dot product over the product
of Euclidean norms.  The floating-point square root is an abstract function
`sqrtQ` (a map from rationals to rationals, as IEEE sqrt is on floats). -/
def cosineSim (sqrtQ : ℚ → ℚ) (u v : Vec) : ℚ :=
  dot u v / (sqrtQ (dot u u) * sqrtQ (dot v v))

/-- `cosine_similarity([u], vs)[0]`: the similarity of `u` to every row. -/
def cosineSimRow (sqrtQ : ℚ → ℚ) (u : Vec) (vs : List Vec) : List ℚ :=
  vs.map (fun v => cosineSim sqrtQ u v)

section StableSort

variable {α : Type*}

/-- Comparison by a rational key, larger keys first; ties are related both
ways, so a stable sort keeps them in input order — the model of Python's
`sorted(..., key=..., reverse=True)`, which is documented to stay stable. -/
def keyGE (key : α → ℚ) (a b : α) : Prop := key b ≤ key a

instance (key : α → ℚ) : DecidableRel (keyGE key) := fun a b =>
  inferInstanceAs (Decidable (key b ≤ key a))

instance (key : α → ℚ) : IsTotal α (keyGE key) :=
  ⟨fun a b => le_total (key b) (key a)⟩

instance (key : α → ℚ) : IsTrans α (keyGE key) :=
  ⟨fun _ _ _ h1 h2 => le_trans h2 h1⟩

end StableSort

/-! ## Data model (`models.py` data, `assign_scores.py` records) -/

/-- A persona record; only the fields the scoring code reads. -/
structure Persona where
  label : String
  description : String
deriving DecidableEq, Repr

/-- One row of `compute_scores`' result. -/
structure ScoreEntry where
  label : String
  embed_score : ℚ
  zero_shot_score : ℚ
  combined_score : ℚ
deriving DecidableEq, Repr

/-- One product-catalog record (`{product, category}`). -/
structure ProductEntry where
  product : String
  category : String
deriving DecidableEq, Repr

/-- One row of `recommend_products`' result. -/
structure ProductRec where
  product : String
  category : String
  score : ℚ
deriving DecidableEq, Repr

/-- The spec's error taxonomy for the scorer (§7).  The source functions
contain no raise statement, so the model never produces these; the type
exists so that the absence of a failure is expressible. -/
inductive ScorerError where
  | emptyInput
  | invalidParameter
deriving DecidableEq, Repr

/-! ## String helpers (Python `str` operations, modelled on `List Char`) -/

/-- `str.strip()` on the character list: drop whitespace at both ends. -/
def stripChars (l : List Char) : List Char :=
  ((l.dropWhile Char.isWhitespace).reverse.dropWhile Char.isWhitespace).reverse

/-- `str.strip()`. -/
def pyStrip (s : String) : String := ⟨stripChars s.data⟩

/-- `" ".join(items)`. -/
def joinSpaceSep : List String → String
  | [] => ""
  | [s] => s
  | s :: t :: rest => s ++ " " ++ joinSpaceSep (t :: rest)

/-! ## `assign_scores.py` -/

/-- `encode_text`: the external sentence-transformer encodes each text into
one vector; `enc` is the abstract per-text encoder. -/
def encode_text (enc : String → Vec) (texts : List String) : List Vec :=
  texts.map enc

/-- `embed_user_input`: the stripped bio and the raw posts are encoded,
each vector is scaled by its weight (`weight_bio` for the bio, `1.0` per
post), and `np.mean(axis=0)` averages the scaled rows — dividing by the
number of rows.  The source has no failure path, so the result is always
`.ok`. -/
def embed_user_input (enc : String → Vec) (bio : String) (posts : List String)
    (weight_bio : ℚ) : Except ScorerError Vec :=
  let texts := pyStrip bio :: posts
  let weights := weight_bio :: posts.map (fun _ => (1 : ℚ))
  let vectors := encode_text enc texts
  let weighted := List.zipWith vecSmul weights vectors
  .ok (vecMean weighted)

/-- Ascending comparison of positions of `xs`: by value, then by index —
the order of a stable ascending argsort. -/
def argsortRel (xs : List ℚ) (i j : ℕ) : Prop :=
  xs.getD i 0 < xs.getD j 0 ∨ (xs.getD i 0 = xs.getD j 0 ∧ i ≤ j)

instance (xs : List ℚ) : DecidableRel (argsortRel xs) := fun _ _ =>
  inferInstanceAs (Decidable (_ ∨ _))

instance (xs : List ℚ) : IsTotal ℕ (argsortRel xs) := by
  constructor
  intro i j
  rcases lt_trichotomy (xs.getD i 0) (xs.getD j 0) with h | h | h
  · exact Or.inl (Or.inl h)
  · rcases le_total i j with hij | hij
    · exact Or.inl (Or.inr ⟨h, hij⟩)
    · exact Or.inr (Or.inr ⟨h.symm, hij⟩)
  · exact Or.inr (Or.inl h)

instance (xs : List ℚ) : IsTrans ℕ (argsortRel xs) := by
  constructor
  intro i j k hij hjk
  rcases hij with h1 | ⟨e1, l1⟩
  · rcases hjk with h2 | ⟨e2, _⟩
    · exact Or.inl (h1.trans h2)
    · exact Or.inl (e2 ▸ h1)
  · rcases hjk with h2 | ⟨e2, l2⟩
    · exact Or.inl (e1 ▸ h2)
    · exact Or.inr ⟨e1.trans e2, l1.trans l2⟩

/-- `np.argsort(sims)`: the indices of `sims` in ascending value order,
ties in index order (numpy's sort is stable on the small arrays here). -/
def argsortAsc (xs : List ℚ) : List ℕ :=
  List.insertionSort (argsortRel xs) (List.range xs.length)

/-- `np.argsort(sims)[::-1][:top_k]`: the ascending argsort reversed, then
sliced — slicing clamps `top_k` to the number of entries. -/
def shortlistIdxs (sims : List ℚ) (top_k : ℕ) : List ℕ :=
  ((argsortAsc sims).reverse).take top_k

/-- The shortlist's labels: `personalities[i]["label"]` for each index. -/
def shortlistLabels (personalities : List Persona) (idxs : List ℕ) : List String :=
  idxs.map (fun i => (personalities.getD i ⟨"", ""⟩).label)

/-- `bio + " " + " ".join(posts)`: the text handed to the classifier. -/
def zsInputText (bio : String) (posts : List String) : String :=
  bio ++ " " ++ joinSpaceSep posts

/-- `dict(zip(labels, scores)).get(k, d)`: association lookup where a later
pair with the same key overwrites an earlier one, defaulting to `d`. -/
def dictGet (pairs : List (String × ℚ)) (k : String) (d : ℚ) : ℚ :=
  match pairs.reverse.find? (fun p => decide (p.1 = k)) with
  | some p => p.2
  | none => d

/-- One result row of `compute_scores`: the similarity and classifier score
are each rounded to 3 places for display, while `combined_score` rounds the
fusion of the raw (unrounded) values. -/
def mkScoreEntry (personalities : List Persona) (sims : List ℚ)
    (zsPairs : List (String × ℚ)) (alpha beta : ℚ) (i : ℕ) : ScoreEntry :=
  let label := (personalities.getD i ⟨"", ""⟩).label
  let s := sims.getD i 0
  let z := dictGet zsPairs label 0
  ⟨label, pyRound s 3, pyRound z 3, pyRound (alpha * s + beta * z) 3⟩

/-- The list comprehension of `compute_scores`, in shortlist order. -/
def scoreEntryList (personalities : List Persona) (sims : List ℚ)
    (zsPairs : List (String × ℚ)) (alpha beta : ℚ) (idxs : List ℕ) : List ScoreEntry :=
  idxs.map (mkScoreEntry personalities sims zsPairs alpha beta)

/-- The unsorted result rows of `compute_scores` for a given user vector:
similarities, shortlist, zero-shot call, fusion.  `zero_shot` is the
abstract classifier pipeline, returning parallel labels and scores. -/
def computeScoreEntries (sqrtQ : ℚ → ℚ)
    (zero_shot : String → List String → List String × List ℚ)
    (bio : String) (posts : List String) (personalities : List Persona)
    (personalities_vectors : List Vec) (alpha beta : ℚ) (top_k : ℕ)
    (user_vector : Vec) : List ScoreEntry :=
  let sims := cosineSimRow sqrtQ user_vector personalities_vectors
  let top_idxs := shortlistIdxs sims top_k
  let labels := shortlistLabels personalities top_idxs
  let zs := zero_shot (zsInputText bio posts) labels
  scoreEntryList personalities sims (List.zip zs.1 zs.2) alpha beta top_idxs

/-- `compute_scores`: embed the user, score the personas, and return the
rows sorted by `zero_shot_score` descending (Python's stable `sorted`). -/
def compute_scores (enc : String → Vec) (sqrtQ : ℚ → ℚ)
    (zero_shot : String → List String → List String × List ℚ)
    (bio : String) (posts : List String) (personalities : List Persona)
    (personalities_vectors : List Vec) (alpha beta : ℚ) (top_k : ℕ)
    (weight_bio : ℚ) : Except ScorerError (List ScoreEntry) := do
  let user_vector ← embed_user_input enc bio posts weight_bio
  .ok (List.insertionSort (keyGE ScoreEntry.zero_shot_score)
    (computeScoreEntries sqrtQ zero_shot bio posts personalities
      personalities_vectors alpha beta top_k user_vector))

/-- `recommend_products`: one vector from the joined posts, the catalog
entries of the given personas in order (absent labels contribute nothing),
early return `[]` on no candidates, else rank by rounded similarity,
descending and stable, and slice to `top_k`. -/
def recommend_products (enc : String → Vec) (sqrtQ : ℚ → ℚ)
    (posts : List String) (top_personas : List String)
    (product_catalog : String → List ProductEntry) (top_k : ℕ) :
    Except ScorerError (List ProductRec) :=
  let user_vector := (encode_text enc [joinSpaceSep posts]).getD 0 []
  let products := (top_personas.map product_catalog).flatten
  if products = [] then .ok []
  else
    let product_texts := products.map (fun p => p.product ++ " - " ++ p.category)
    let product_vecs := encode_text enc product_texts
    let scores := cosineSimRow sqrtQ user_vector product_vecs
    .ok ((List.insertionSort (keyGE ProductRec.score)
      (List.zipWith (fun p s => ProductRec.mk p.product p.category (pyRound s 3))
        products scores)).take top_k)

/-! ## `insights.py` -/

/-- Modelled from the spec: the external `emoji.is_emoji` capability of
`insights.py`, a per-character Unicode codepoint-range membership test
(the emoji library itself is not part of the repository). -/
def is_emoji (c : Char) : Bool :=
  if (0x1F300 ≤ c.toNat ∧ c.toNat ≤ 0x1FAFF) ∨ (0x2600 ≤ c.toNat ∧ c.toNat ≤ 0x27BF)
  then true else false

/-- Counts maximal non-whitespace runs; the flag records whether the scan
is inside a run.  This is `len(s.split())` with Python's no-argument
whitespace split. -/
def wordCountAux : List Char → Bool → ℕ
  | [], _ => 0
  | c :: cs, inWord =>
    if c.isWhitespace then wordCountAux cs false
    else (if inWord then 0 else 1) + wordCountAux cs true

/-- `len(p.split())`. -/
def wordCount (s : String) : ℕ := wordCountAux s.data false

/-- `p.count("!")` for a single character: occurrences of `ch` in `s`. -/
def countChar (ch : Char) (s : String) : ℕ := s.data.count ch

/-- `any(emoji.is_emoji(c) for c in p)`. -/
def hasEmoji (s : String) : Bool := s.data.any is_emoji

/-- The four style metrics of `post_style_insights`. -/
structure StyleInsights where
  avg_post_length_chars : ℚ
  avg_post_length_words : ℚ
  emoji_usage_percent : ℚ
  avg_exclamations_per_post : ℚ
deriving DecidableEq, Repr

/-- `post_style_insights`: `none` models the empty dict returned for empty
`posts`; otherwise the four averages, rounded as the source rounds. -/
def post_style_insights (posts : List String) : Option StyleInsights :=
  if posts = [] then none
  else
    let total_chars : ℕ := (posts.map (fun p => p.data.length)).sum
    let total_words : ℕ := (posts.map wordCount).sum
    let posts_with_emoji : ℕ := (posts.filter (fun p => hasEmoji p)).length
    let exclamations : ℕ := (posts.map (countChar '!')).sum
    let num : ℕ := posts.length
    some ⟨pyRound ((total_chars : ℚ) / num) 1,
          pyRound ((total_words : ℚ) / num) 1,
          pyRound (100 * (posts_with_emoji : ℚ) / num) 1,
          pyRound ((exclamations : ℚ) / num) 2⟩

/-- The spec's style-analyzer scenario input (§8). -/
def scenarioPosts : List String := ["I love hiking! 🏔️", "Best trail ever!!"]

/-! ## Rounding lemmas -/

theorem bankerRound_of_lt_half {q : ℚ} {n : ℤ} (h1 : (n : ℚ) ≤ q)
    (h2 : q < (n : ℚ) + 1/2) : bankerRound q = n := by
  have hf : ⌊q⌋ = n := Int.floor_eq_iff.mpr ⟨h1, by linarith⟩
  unfold bankerRound
  rw [hf, if_pos (by linarith)]

theorem bankerRound_of_half_lt {q : ℚ} {n : ℤ} (h1 : (n : ℚ) + 1/2 < q)
    (h2 : q < (n : ℚ) + 1) : bankerRound q = n + 1 := by
  have hf : ⌊q⌋ = n := Int.floor_eq_iff.mpr ⟨by linarith, h2⟩
  unfold bankerRound
  rw [hf, if_neg (by linarith), if_pos (by linarith)]

theorem pyRound_eval_lt {q : ℚ} {n : ℕ} {m : ℤ} (h1 : (m : ℚ) ≤ q * 10 ^ n)
    (h2 : q * 10 ^ n < (m : ℚ) + 1/2) : pyRound q n = (m : ℚ) / 10 ^ n := by
  unfold pyRound
  rw [bankerRound_of_lt_half h1 h2]

theorem pyRound_eval_gt {q : ℚ} {n : ℕ} {m : ℤ} (h1 : (m : ℚ) + 1/2 < q * 10 ^ n)
    (h2 : q * 10 ^ n < (m : ℚ) + 1) : pyRound q n = ((m : ℚ) + 1) / 10 ^ n := by
  unfold pyRound
  rw [bankerRound_of_half_lt h1 h2]
  push_cast
  ring

theorem bankerRound_cases (q : ℚ) :
    bankerRound q = ⌊q⌋ ∨ bankerRound q = ⌊q⌋ + 1 := by
  unfold bankerRound
  split
  · exact Or.inl rfl
  split
  · exact Or.inr rfl
  split
  · exact Or.inl rfl
  · exact Or.inr rfl

theorem bankerRound_nonneg {q : ℚ} (h : 0 ≤ q) : 0 ≤ bankerRound q := by
  have hf : 0 ≤ ⌊q⌋ := Int.floor_nonneg.mpr h
  rcases bankerRound_cases q with hc | hc <;> omega

theorem bankerRound_le_of_le {q : ℚ} {m : ℤ} (h : q ≤ (m : ℚ)) :
    bankerRound q ≤ m := by
  have hfm : ⌊q⌋ ≤ m := by
    have := Int.floor_mono h
    rwa [Int.floor_intCast] at this
  unfold bankerRound
  split
  · exact hfm
  · next hnot =>
    have hhalf : (⌊q⌋ : ℚ) + 1/2 ≤ q := by
      have := Int.sub_one_lt_floor q
      linarith [not_lt.mp hnot]
    have : (⌊q⌋ : ℚ) < (m : ℚ) := by linarith
    have hlt : ⌊q⌋ < m := by exact_mod_cast this
    split
    · omega
    split
    · exact hfm
    · omega

theorem pyRound_nonneg {q : ℚ} (h : 0 ≤ q) (n : ℕ) : 0 ≤ pyRound q n := by
  unfold pyRound
  apply div_nonneg _ (by positivity)
  have : (0 : ℤ) ≤ bankerRound (q * 10 ^ n) :=
    bankerRound_nonneg (by positivity)
  exact_mod_cast this

theorem pyRound_le_one {q : ℚ} (h : q ≤ 1) (n : ℕ) : pyRound q n ≤ 1 := by
  unfold pyRound
  rw [div_le_one (by positivity)]
  have hq : q * 10 ^ n ≤ (((10 : ℤ) ^ n : ℤ) : ℚ) := by
    push_cast
    calc q * 10 ^ n ≤ 1 * 10 ^ n := by
          apply mul_le_mul_of_nonneg_right h (by positivity)
      _ = 10 ^ n := one_mul _
  have : bankerRound (q * 10 ^ n) ≤ (10 : ℤ) ^ n := bankerRound_le_of_le hq
  calc ((bankerRound (q * 10 ^ n) : ℚ)) ≤ (((10 : ℤ) ^ n : ℤ) : ℚ) := by exact_mod_cast this
    _ = 10 ^ n := by push_cast; ring

/-! ## Stability of the key-based insertion sort -/

theorem filter_orderedInsert_key_eq {α : Type*} (key : α → ℚ) (c : ℚ) (x : α)
    (hx : key x = c) :
    ∀ l : List α, (l.orderedInsert (keyGE key) x).filter (fun a => key a = c) =
      x :: l.filter (fun a => key a = c)
  | [] => by simp [List.orderedInsert, hx]
  | y :: ys => by
    by_cases h : keyGE key x y
    · simp [List.orderedInsert, h, hx]
    · have hxy : key x < key y := lt_of_not_le h
      have hy : ¬ (key y = c) := by
        intro hc
        rw [hx] at hxy
        exact absurd hc (ne_of_gt (hc ▸ hxy))
      simp only [List.orderedInsert, if_neg h, List.filter_cons]
      rw [filter_orderedInsert_key_eq key c x hx ys]
      simp [hy]

theorem filter_orderedInsert_key_ne {α : Type*} (key : α → ℚ) (c : ℚ) (x : α)
    (hx : ¬ (key x = c)) :
    ∀ l : List α, (l.orderedInsert (keyGE key) x).filter (fun a => key a = c) =
      l.filter (fun a => key a = c)
  | [] => by simp [List.orderedInsert, hx]
  | y :: ys => by
    by_cases h : keyGE key x y
    · simp [List.orderedInsert, h, hx]
    · simp only [List.orderedInsert, if_neg h, List.filter_cons]
      rw [filter_orderedInsert_key_ne key c x hx ys]

/-- Stability of insertion sort by a key: within one key value, the sorted
list keeps exactly the input's elements in the input's order. -/
theorem filter_insertionSort_key {α : Type*} (key : α → ℚ) (c : ℚ) :
    ∀ l : List α, (List.insertionSort (keyGE key) l).filter (fun a => key a = c) =
      l.filter (fun a => key a = c)
  | [] => rfl
  | x :: xs => by
    by_cases hx : key x = c
    · rw [List.insertionSort, filter_orderedInsert_key_eq key c x hx,
        filter_insertionSort_key key c xs]
      simp [hx]
    · rw [List.insertionSort, filter_orderedInsert_key_ne key c x hx,
        filter_insertionSort_key key c xs]
      simp [hx]

/-! ## Shortlist lemmas (`np.argsort(sims)[::-1][:top_k]`) -/

theorem argsortAsc_perm_range (xs : List ℚ) :
    (argsortAsc xs).Perm (List.range xs.length) :=
  List.perm_insertionSort _ _

theorem shortlistIdxs_length (sims : List ℚ) (k : ℕ) :
    (shortlistIdxs sims k).length = min k sims.length := by
  rw [shortlistIdxs, List.length_take, List.length_reverse,
    argsortAsc, List.length_insertionSort, List.length_range]

theorem mem_shortlistIdxs_lt {sims : List ℚ} {k i : ℕ}
    (h : i ∈ shortlistIdxs sims k) : i < sims.length := by
  have h1 : i ∈ (argsortAsc sims).reverse := List.mem_of_mem_take h
  have h2 : i ∈ argsortAsc sims := List.mem_reverse.mp h1
  have h3 : i ∈ List.range sims.length :=
    (argsortAsc_perm_range sims).mem_iff.mp h2
  exact List.mem_range.mp h3

theorem shortlistIdxs_sorted (sims : List ℚ) (k : ℕ) :
    List.Sorted (fun i j => argsortRel sims j i) (shortlistIdxs sims k) := by
  have hs : List.Sorted (argsortRel sims) (argsortAsc sims) :=
    List.sorted_insertionSort _ _
  have hr : List.Pairwise (fun i j => argsortRel sims j i) ((argsortAsc sims).reverse) :=
    List.pairwise_reverse.mpr hs
  exact hr.sublist (List.take_sublist _ _)

theorem shortlistIdxs_maximal {sims : List ℚ} {k i : ℕ}
    (hi : i ∈ shortlistIdxs sims k) {j : ℕ} (hj : j < sims.length)
    (hj2 : j ∉ shortlistIdxs sims k) : argsortRel sims j i := by
  set L := (argsortAsc sims).reverse with hL
  have hsorted : List.Pairwise (fun i j => argsortRel sims j i) L :=
    List.pairwise_reverse.mpr (List.sorted_insertionSort _ _)
  have hjL : j ∈ L := by
    rw [hL, List.mem_reverse]
    exact (argsortAsc_perm_range sims).mem_iff.mpr (List.mem_range.mpr hj)
  have hsplit : List.take k L ++ List.drop k L = L := List.take_append_drop k L
  have hpair := (List.pairwise_append.mp (by rw [hsplit]; exact hsorted)).2.2
  have hjdrop : j ∈ List.drop k L := by
    rcases (List.mem_append.mp (by rw [hsplit]; exact hjL)) with h | h
    · exact absurd h hj2
    · exact h
  exact hpair i hi j hjdrop

/-! ## Lookup and entry lemmas -/

theorem dictGet_default_or_mem (pairs : List (String × ℚ)) (k : String) (d : ℚ) :
    dictGet pairs k d = d ∨ ∃ p ∈ pairs, dictGet pairs k d = p.2 := by
  unfold dictGet
  cases hf : pairs.reverse.find? (fun p => decide (p.1 = k)) with
  | none => exact Or.inl rfl
  | some p =>
    refine Or.inr ⟨p, ?_, rfl⟩
    exact List.mem_reverse.mp (List.mem_of_find?_eq_some hf)

theorem label_getD_mem (ps : List Persona) {i : ℕ} (h : i < ps.length) :
    (ps.getD i ⟨"", ""⟩).label ∈ ps.map Persona.label := by
  rw [List.getD_eq_getElem ps ⟨"", ""⟩ h]
  exact List.mem_map.mpr ⟨ps[i], List.getElem_mem h, rfl⟩

/-- Unfolding `compute_scores`: the `do`-bind on the always-`ok` user
embedding, then the stable sort of the entry list. -/
theorem compute_scores_unfold (enc : String → Vec) (sqrtQ : ℚ → ℚ)
    (zero_shot : String → List String → List String × List ℚ)
    (bio : String) (posts : List String) (personalities : List Persona)
    (personalities_vectors : List Vec) (alpha beta : ℚ) (top_k : ℕ)
    (weight_bio : ℚ) :
    compute_scores enc sqrtQ zero_shot bio posts personalities
      personalities_vectors alpha beta top_k weight_bio =
      .ok (List.insertionSort (keyGE ScoreEntry.zero_shot_score)
        (computeScoreEntries sqrtQ zero_shot bio posts personalities
          personalities_vectors alpha beta top_k
          (vecMean (List.zipWith vecSmul
            (weight_bio :: posts.map (fun _ => (1 : ℚ)))
            (encode_text enc (pyStrip bio :: posts)))))) := rfl

/-- The spec's §8 scenario, evaluated: 34 characters, 7 whitespace tokens,
1 post with an emoji, and 3 exclamation marks over 2 posts. -/
theorem scenario_insights_eval :
    post_style_insights scenarioPosts = some ⟨17, 7/2, 50, 3/2⟩ := by
  have hchars : (scenarioPosts.map (fun p => p.data.length)).sum = 34 := by decide
  have hwords : (scenarioPosts.map wordCount).sum = 7 := by decide
  have hemoji : (scenarioPosts.filter (fun p => hasEmoji p)).length = 1 := by decide
  have hexcl : (scenarioPosts.map (countChar '!')).sum = 3 := by decide
  have hlen : scenarioPosts.length = 2 := by decide
  rw [post_style_insights, if_neg (by decide)]
  simp only [hchars, hwords, hemoji, hexcl, hlen]
  have h1 : pyRound ((17 : ℚ)) 1 = 17 := by
    have h := pyRound_eval_lt (q := (17 : ℚ)) (n := 1) (m := 170) (by norm_num) (by norm_num)
    norm_num at h
    exact h
  have h2 : pyRound ((7 : ℚ) / 2) 1 = 7/2 := by
    have h := pyRound_eval_lt (q := (7 : ℚ)/2) (n := 1) (m := 35) (by norm_num) (by norm_num)
    norm_num at h
    exact h
  have h3 : pyRound ((50 : ℚ)) 1 = 50 := by
    have h := pyRound_eval_lt (q := (50 : ℚ)) (n := 1) (m := 500) (by norm_num) (by norm_num)
    norm_num at h
    exact h
  have h4 : pyRound ((3 : ℚ) / 2) 2 = 3/2 := by
    have h := pyRound_eval_lt (q := (3 : ℚ)/2) (n := 2) (m := 150) (by norm_num) (by norm_num)
    norm_num at h
    exact h
  norm_num [h1, h2, h3, h4]

/-! ## Claim theorems -/

/-- C3 (counterexample): with the default `weight_bio = 2`, the user vector
for empty `posts` is the bio vector scaled by `weight_bio` — `np.mean` over
the single weighted row divides by the row count 1, not by the weight — so
it does not equal the bio's embedding vector. -/
theorem embed_user_input_no_posts_cex :
    embed_user_input (fun _ => [(1 : ℚ)]) "b" [] 2 = .ok [2] ∧
    (Except.ok [(2 : ℚ)] : Except ScorerError Vec) ≠ .ok ((fun _ => [(1 : ℚ)]) "b") := by
  constructor
  · show Except.ok (vecMean [vecSmul 2 [(1 : ℚ)]]) = _
    simp [vecMean, vecSmul]
  · simp

/-- C3 (amended): for empty `posts`, `embed_user_input` returns the encoded
stripped bio scaled by `weight_bio` (the mean of the one weighted row). -/
theorem embed_user_input_no_posts (enc : String → Vec) (bio : String) (w : ℚ) :
    embed_user_input enc bio [] w = .ok (vecSmul w (enc (pyStrip bio))) := by
  show Except.ok (vecMean [vecSmul w (enc (pyStrip bio))]) = _
  simp [vecMean, vecSmul]

/-- C5 (counterexample): with `bio = ""` and `posts = []`,
`embed_user_input` does not fail with any error — it encodes the stripped
empty bio like any other text and returns its weighted mean. -/
theorem embed_user_input_empty_no_error :
    embed_user_input (fun _ => [(1 : ℚ)]) "" [] 2 = .ok [2] ∧
    ¬ ∃ e, embed_user_input (fun _ => [(1 : ℚ)]) "" [] 2 = .error e := by
  have h : embed_user_input (fun _ => [(1 : ℚ)]) "" [] 2 = .ok [2] := by
    show Except.ok (vecMean [vecSmul 2 [(1 : ℚ)]]) = _
    simp [vecMean, vecSmul]
  refine ⟨h, ?_⟩
  rintro ⟨e, he⟩
  rw [h] at he
  exact Except.noConfusion he

/-- C5 (amended): the user-vector construction never raises: for every
input, the empty one included, `embed_user_input` returns a vector. -/
theorem embed_user_input_never_fails (enc : String → Vec) (bio : String)
    (posts : List String) (w : ℚ) :
    ∃ v : Vec, embed_user_input enc bio posts w = .ok v :=
  ⟨_, rfl⟩

/-- C7: `post_style_insights` maps the empty post list to the empty result,
and any non-empty list of `n` posts to exactly the four metrics: average
characters per post rounded to 1 place, average whitespace-token count per
post rounded to 1 place, the percentage of posts containing an emoji
rounded to 1 place, and average `!` count per post rounded to 2 places. -/
theorem post_style_insights_fields :
    post_style_insights [] = none ∧
    ∀ posts : List String, posts ≠ [] →
      post_style_insights posts = some
        ⟨pyRound (((posts.map String.length).sum : ℚ) / posts.length) 1,
         pyRound (((posts.map wordCount).sum : ℚ) / posts.length) 1,
         pyRound (100 * ((posts.countP (fun p => hasEmoji p) : ℚ)) / posts.length) 1,
         pyRound (((posts.map (countChar '!')).sum : ℚ) / posts.length) 2⟩ := by
  constructor
  · rfl
  · intro posts h
    rw [post_style_insights, if_neg h]
    have hc : (posts.map (fun p => p.data.length)).sum = (posts.map String.length).sum := rfl
    have he : (posts.filter (fun p => hasEmoji p)).length = posts.countP (fun p => hasEmoji p) :=
      (List.countP_eq_length_filter _ _).symm
    rw [hc, he]

/-- C9: `recommend_products` returns `.ok []` (no error) whenever no
shortlisted persona has catalog entries — in particular for an empty
`top_personas` list. -/
theorem recommend_products_no_candidates (enc : String → Vec) (sqrtQ : ℚ → ℚ)
    (posts : List String) (top_personas : List String)
    (product_catalog : String → List ProductEntry) (top_k : ℕ)
    (h : ∀ p ∈ top_personas, product_catalog p = []) :
    recommend_products enc sqrtQ posts top_personas product_catalog top_k = .ok [] := by
  have hflat : (top_personas.map product_catalog).flatten = [] := by
    rw [List.flatten_eq_nil_iff]
    intro l hl
    obtain ⟨p, hp, rfl⟩ := List.mem_map.mp hl
    exact h p hp
  unfold recommend_products
  rw [hflat]
  rfl

/-- C9 (witness): a concrete persona label with no catalog entries. -/
theorem recommend_products_no_candidates_witness :
    recommend_products (fun _ => [(1 : ℚ)]) (fun q => q) ["post"] ["x"]
      (fun _ => []) 5 = .ok [] :=
  recommend_products_no_candidates _ _ _ _ _ _ (fun _ _ => rfl)

/-- C10: calling `recommend_products` with empty `posts` never errors: the
joined user text is the empty string — exactly as for `posts = [""]` — and
a ranked list (possibly empty) is returned. -/
theorem recommend_products_empty_posts (enc : String → Vec) (sqrtQ : ℚ → ℚ)
    (top_personas : List String) (product_catalog : String → List ProductEntry)
    (top_k : ℕ) :
    recommend_products enc sqrtQ [] top_personas product_catalog top_k =
      recommend_products enc sqrtQ [""] top_personas product_catalog top_k ∧
    ∃ l, recommend_products enc sqrtQ [] top_personas product_catalog top_k = .ok l := by
  constructor
  · rfl
  · unfold recommend_products
    by_cases h : (top_personas.map product_catalog).flatten = []
    · rw [if_pos h]
      exact ⟨[], rfl⟩
    · rw [if_neg h]
      exact ⟨_, rfl⟩

/-- C1: `compute_scores` always returns, its result is sorted by
`zero_shot_score` descending (that field, not `combined_score`, is the
sort key), and within one `zero_shot_score` value the result keeps exactly
the entries of the embedding-similarity shortlist order — Python's
`sorted` is stable under `reverse=True`. -/
theorem compute_scores_sorted_stable (enc : String → Vec) (sqrtQ : ℚ → ℚ)
    (zero_shot : String → List String → List String × List ℚ)
    (bio : String) (posts : List String) (personalities : List Persona)
    (personalities_vectors : List Vec) (alpha beta : ℚ) (top_k : ℕ)
    (weight_bio : ℚ) :
    ∃ u l, embed_user_input enc bio posts weight_bio = .ok u ∧
      compute_scores enc sqrtQ zero_shot bio posts personalities
        personalities_vectors alpha beta top_k weight_bio = .ok l ∧
      l.Sorted (keyGE ScoreEntry.zero_shot_score) ∧
      ∀ c : ℚ, l.filter (fun e => e.zero_shot_score = c) =
        (computeScoreEntries sqrtQ zero_shot bio posts personalities
          personalities_vectors alpha beta top_k u).filter
            (fun e => e.zero_shot_score = c) := by
  refine ⟨_, _, rfl, rfl, ?_, ?_⟩
  · exact List.sorted_insertionSort _ _
  · intro c
    exact filter_insertionSort_key ScoreEntry.zero_shot_score c _

/-- C2 (amended): every returned entry is built at some shortlist index
`i` from the raw similarity `s` and raw classifier score `z` there:
`embed_score = round(s, 3)`, `zero_shot_score = round(z, 3)`, and
`combined_score = round(alpha*s + beta*z, 3)` — the fusion is rounded only
after combining the unrounded values, not applied to the already-rounded
fields. -/
theorem compute_scores_fusion_of_raw (enc : String → Vec) (sqrtQ : ℚ → ℚ)
    (zero_shot : String → List String → List String × List ℚ)
    (bio : String) (posts : List String) (personalities : List Persona)
    (personalities_vectors : List Vec) (alpha beta : ℚ) (top_k : ℕ)
    (weight_bio : ℚ) :
    ∃ u l sims zsPairs,
      embed_user_input enc bio posts weight_bio = .ok u ∧
      sims = cosineSimRow sqrtQ u personalities_vectors ∧
      zsPairs = (fun zs => List.zip zs.1 zs.2)
        (zero_shot (zsInputText bio posts)
          (shortlistLabels personalities (shortlistIdxs sims top_k))) ∧
      compute_scores enc sqrtQ zero_shot bio posts personalities
        personalities_vectors alpha beta top_k weight_bio = .ok l ∧
      ∀ e ∈ l, ∃ i ∈ shortlistIdxs sims top_k,
        e.embed_score = pyRound (sims.getD i 0) 3 ∧
        e.zero_shot_score =
          pyRound (dictGet zsPairs ((personalities.getD i ⟨"", ""⟩).label) 0) 3 ∧
        e.combined_score =
          pyRound (alpha * sims.getD i 0 +
            beta * dictGet zsPairs ((personalities.getD i ⟨"", ""⟩).label) 0) 3 := by
  refine ⟨_, _, _, _, rfl, rfl, rfl, rfl, ?_⟩
  intro e he
  have hmem : e ∈ computeScoreEntries sqrtQ zero_shot bio posts personalities
      personalities_vectors alpha beta top_k
      (vecMean (List.zipWith vecSmul
        (weight_bio :: posts.map (fun _ => (1 : ℚ)))
        (encode_text enc (pyStrip bio :: posts)))) :=
    (List.mem_insertionSort _).mp he
  obtain ⟨i, hi, rfl⟩ := List.mem_map.mp hmem
  exact ⟨i, hi, rfl, rfl, rfl⟩

/-- C4 (amended): the shortlist has `min(top_k, n)` indices, all valid; it
is ordered by similarity descending, but a tie is broken in favor of the
persona appearing LATER in the catalog (the ascending argsort is reversed,
which reverses tied runs); and it is a top-k selection: every index left
out relates to every shortlisted index by ascending `(value, index)`
order. -/
theorem shortlistIdxs_top_k_ties_later (sims : List ℚ) (k : ℕ) :
    (shortlistIdxs sims k).length = min k sims.length ∧
    (∀ i ∈ shortlistIdxs sims k, i < sims.length) ∧
    List.Sorted (fun i j => argsortRel sims j i) (shortlistIdxs sims k) ∧
    (∀ i ∈ shortlistIdxs sims k, ∀ j, j < sims.length →
      j ∉ shortlistIdxs sims k → argsortRel sims j i) :=
  ⟨shortlistIdxs_length sims k,
   fun _ hi => mem_shortlistIdxs_lt hi,
   shortlistIdxs_sorted sims k,
   fun _ hi j hj hj2 => shortlistIdxs_maximal hi hj hj2⟩

/-- C6: with a persona-vector row per persona, a classifier whose scores
lie in `[0, 1]`, and any `top_k ≥ 1`, `compute_scores` returns (without
any `InvalidParameterError`) exactly `min(top_k, n)` entries — array
slicing clamps an oversized `top_k` — every returned label is a catalog
label, and every `zero_shot_score` lies in `[0, 1]`. -/
theorem compute_scores_clamps_and_bounds (enc : String → Vec) (sqrtQ : ℚ → ℚ)
    (zero_shot : String → List String → List String × List ℚ)
    (bio : String) (posts : List String) (personalities : List Persona)
    (personalities_vectors : List Vec) (alpha beta : ℚ) (top_k : ℕ)
    (weight_bio : ℚ)
    (hk : 1 ≤ top_k)
    (hlen : personalities_vectors.length = personalities.length)
    (hzs : ∀ t ls s, s ∈ (zero_shot t ls).2 → 0 ≤ s ∧ s ≤ 1) :
    ∃ l, compute_scores enc sqrtQ zero_shot bio posts personalities
        personalities_vectors alpha beta top_k weight_bio = .ok l ∧
      l.length = min top_k personalities.length ∧
      (∀ e ∈ l, e.label ∈ personalities.map Persona.label) ∧
      (∀ e ∈ l, 0 ≤ e.zero_shot_score ∧ e.zero_shot_score ≤ 1) := by
  refine ⟨_, rfl, ?_, ?_, ?_⟩
  · rw [List.length_insertionSort]
    set u := vecMean (List.zipWith vecSmul
      (weight_bio :: posts.map (fun _ => (1 : ℚ)))
      (encode_text enc (pyStrip bio :: posts)))
    have hsims : (cosineSimRow sqrtQ u personalities_vectors).length =
        personalities.length := by
      rw [cosineSimRow, List.length_map, hlen]
    rw [computeScoreEntries, scoreEntryList, List.length_map,
      shortlistIdxs_length, hsims]
  · intro e he
    have hmem := (List.mem_insertionSort _).mp he
    obtain ⟨i, hi, rfl⟩ := List.mem_map.mp hmem
    have hilt : i < personalities.length := by
      have := mem_shortlistIdxs_lt hi
      rwa [cosineSimRow, List.length_map, hlen] at this
    exact label_getD_mem personalities hilt
  · intro e he
    have hmem := (List.mem_insertionSort _).mp he
    obtain ⟨i, hi, rfl⟩ := List.mem_map.mp hmem
    show 0 ≤ pyRound _ 3 ∧ pyRound _ 3 ≤ 1
    set zs := zero_shot (zsInputText bio posts)
      (shortlistLabels personalities (shortlistIdxs _ top_k))
    have hz : 0 ≤ dictGet (List.zip zs.1 zs.2)
        ((personalities.getD i ⟨"", ""⟩).label) 0 ∧
        dictGet (List.zip zs.1 zs.2)
          ((personalities.getD i ⟨"", ""⟩).label) 0 ≤ 1 := by
      rcases dictGet_default_or_mem (List.zip zs.1 zs.2)
        ((personalities.getD i ⟨"", ""⟩).label) 0 with h | ⟨p, hp, h⟩
      · rw [h]
        norm_num
      · rw [h]
        exact hzs _ _ _ (List.of_mem_zip (by exact hp)).2
    exact ⟨pyRound_nonneg hz.1 3, pyRound_le_one hz.2 3⟩

/-- C6 (witness): one persona, one unit vector, a classifier returning
probability one half, `top_k = 1`. -/
theorem compute_scores_clamps_and_bounds_witness :
    ∃ l, compute_scores (fun _ => [(1 : ℚ)]) (fun q => q)
        (fun _ ls => (ls, [(1 : ℚ)/2])) "b" [] [⟨"A", "d"⟩] [[1]] 1 1 1 2 = .ok l ∧
      l.length = min 1 ([⟨"A", "d"⟩] : List Persona).length ∧
      (∀ e ∈ l, e.label ∈ ([⟨"A", "d"⟩] : List Persona).map Persona.label) ∧
      (∀ e ∈ l, 0 ≤ e.zero_shot_score ∧ e.zero_shot_score ≤ 1) :=
  compute_scores_clamps_and_bounds _ _ _ _ _ _ _ _ _ _ _ (le_refl 1) rfl
    (by
      intro t ls s hs
      simp only [List.mem_singleton] at hs
      subst hs
      norm_num)

/-- C2 (counterexample): with one persona, similarity `63/65 ≈ 0.96923`
(rounded field `0.969`), classifier score `0.0003` (rounded field `0`),
and `alpha = beta = 1`, the returned `combined_score` is `0.97` — the
rounding of the raw fusion `0.96953` — while fusing the already-rounded
fields would give `round(0.969 + 0, 3) = 0.969`. -/
theorem compute_scores_fusion_cex :
    compute_scores (fun _ => [(3 : ℚ)/2, 2]) (fun q => if q = 25 then 5 else 1)
      (fun _ ls => (ls, [(3 : ℚ)/10000])) "b" [] [⟨"A", "d"⟩]
      [[5/13, 12/13]] 1 1 1 2 = .ok [⟨"A", 969/1000, 0, 97/100⟩] ∧
    (97 : ℚ)/100 ≠ pyRound (1 * (969/1000) + 1 * 0) 3 := by
  have hembed : pyRound ((63 : ℚ)/65) 3 = 969/1000 := by
    have h := pyRound_eval_lt (q := (63 : ℚ)/65) (n := 3) (m := 969) (by norm_num) (by norm_num)
    norm_num at h
    exact h
  constructor
  · rw [compute_scores_unfold]
    have hu : vecMean (List.zipWith vecSmul
        ((2 : ℚ) :: List.map (fun _ => (1 : ℚ)) ([] : List String))
        (encode_text (fun _ => [(3 : ℚ)/2, 2]) (pyStrip "b" :: []))) = [3, 4] := by
      norm_num [vecMean, vecSmul, encode_text]
    rw [hu]
    have hsims : cosineSimRow (fun q => if q = 25 then 5 else 1) [3, 4]
        [[5/13, 12/13]] = [63/65] := by
      norm_num [cosineSimRow, cosineSim, dot]
    rw [computeScoreEntries, hsims]
    have hsl : shortlistIdxs [(63 : ℚ)/65] 1 = [0] := rfl
    rw [hsl]
    have hlab : shortlistLabels [⟨"A", "d"⟩] [0] = ["A"] := rfl
    rw [hlab]
    show Except.ok (List.insertionSort _
      (scoreEntryList _ _ (List.zip ["A"] [(3 : ℚ)/10000]) _ _ [0])) = _
    rw [scoreEntryList]
    simp only [List.map_cons, List.map_nil, mkScoreEntry, List.getD_cons_zero]
    have hdg : dictGet (List.zip ["A"] [(3 : ℚ)/10000]) "A" 0 = 3/10000 := rfl
    rw [hdg]
    have hzs : pyRound ((3 : ℚ)/10000) 3 = 0 := by
      have h := pyRound_eval_lt (q := (3 : ℚ)/10000) (n := 3) (m := 0) (by norm_num) (by norm_num)
      norm_num at h
      exact h
    have hcomb : pyRound ((126039 : ℚ)/130000) 3 = 97/100 := by
      have h := pyRound_eval_gt (q := (126039 : ℚ)/130000) (n := 3) (m := 969) (by norm_num) (by norm_num)
      norm_num at h
      exact h
    norm_num [hembed, hzs, hcomb, List.insertionSort, List.orderedInsert]
  · have h2 : pyRound ((1 : ℚ) * (969/1000) + 1 * 0) 3 = 969/1000 := by
      have h := pyRound_eval_lt (q := (1 : ℚ) * (969/1000) + 1 * 0) (n := 3) (m := 969) (by norm_num) (by norm_num)
      norm_num at h
      convert h using 2
      norm_num
    rw [h2]
    norm_num

/-- C4 (counterexample): two personas with equal similarity 1 and
`top_k = 1`: the shortlist keeps persona "B" — the one appearing LATER in
the catalog — because the ascending argsort `[0, 1]` is reversed to
`[1, 0]` before slicing; the claim would select the earlier "A". -/
theorem compute_scores_tie_cex :
    compute_scores (fun _ => [(1 : ℚ)/2, 0]) (fun q => if q = 1 then 1 else q)
      (fun _ ls => (ls, [(1 : ℚ)])) "b" [] [⟨"A", "da"⟩, ⟨"B", "db"⟩]
      [[1, 0], [1, 0]] (1/2) (1/2) 1 2 = .ok [⟨"B", 1, 1, 1⟩] ∧
    (⟨"B", 1, 1, 1⟩ : ScoreEntry).label ≠
      (([⟨"A", "da"⟩, ⟨"B", "db"⟩] : List Persona).getD 0 ⟨"", ""⟩).label := by
  constructor
  · rw [compute_scores_unfold]
    have hu : vecMean (List.zipWith vecSmul
        ((2 : ℚ) :: List.map (fun _ => (1 : ℚ)) ([] : List String))
        (encode_text (fun _ => [(1 : ℚ)/2, 0]) (pyStrip "b" :: []))) = [1, 0] := by
      norm_num [vecMean, vecSmul, encode_text]
    rw [hu]
    have hsims : cosineSimRow (fun q => if q = 1 then 1 else q) [1, 0]
        [[1, 0], [1, 0]] = [1, 1] := by
      norm_num [cosineSimRow, cosineSim, dot]
    have hp1 : pyRound (1 : ℚ) 3 = 1 := by
      have h := pyRound_eval_lt (q := 1) (n := 3) (m := 1000) (by norm_num) (by norm_num)
      norm_num at h
      exact h
    have hcomb : pyRound ((1 : ℚ)/2 * 1 + 1/2 * 1) 3 = 1 := by
      rw [show ((1 : ℚ)/2 * 1 + 1/2 * 1) = 1 by norm_num]
      exact hp1
    rw [computeScoreEntries, hsims]
    have hsl : shortlistIdxs [(1 : ℚ), 1] 1 = [1] := by decide
    rw [hsl]
    have hlab : shortlistLabels [⟨"A", "da"⟩, ⟨"B", "db"⟩] [1] = ["B"] := by decide
    rw [hlab]
    show Except.ok (List.insertionSort _
      (scoreEntryList _ _ (List.zip ["B"] [(1 : ℚ)]) _ _ [1])) = _
    rw [scoreEntryList]
    simp only [List.map_cons, List.map_nil, mkScoreEntry]
    norm_num [dictGet, hp1, hcomb, List.insertionSort, List.orderedInsert]
  · decide

/-- C8 (counterexample): on the spec's scenario posts, the average
whitespace-token count is `3.5` — the claim's `4.0` contradicts the
whitespace-split tokenization (`hiking!` and `🏔️` are separate tokens). -/
theorem scenario_insights_words_cex :
    ¬ ∃ r, post_style_insights scenarioPosts = some r ∧
      r.avg_post_length_words = 4 := by
  rintro ⟨r, hr, hw⟩
  rw [scenario_insights_eval] at hr
  obtain rfl := Option.some.inj hr
  norm_num at hw

/-- C8 (amended): the scenario yields `avg_exclamations_per_post = 1.5`,
`emoji_usage_percent = 50.0`, and `avg_post_length_words = 3.5` (not 4.0):
post 1 splits into 4 whitespace tokens and post 2 into 3, so 7/2 = 3.5. -/
theorem scenario_insights_values :
    ∃ r, post_style_insights scenarioPosts = some r ∧
      r.avg_exclamations_per_post = 3/2 ∧
      r.emoji_usage_percent = 50 ∧
      r.avg_post_length_words = 7/2 :=
  ⟨⟨17, 7/2, 50, 3/2⟩, scenario_insights_eval, rfl, rfl, rfl⟩

end Spec2Proof
